import Mathlib

/-!
Verification of the citizenwallet engine against its specification.

The Go sources are shallowly embedded: pure functions become Lean functions,
SQL statements become explicit transformations of a list-of-rows table model,
and the chain RPC is an explicit function parameter.  Machine integers are
modelled as `Nat`/`Int`; 64-bit lanes of the Keccak permutation keep their
values below `2^64` by masking.
-/

namespace Engine

/-! ### Keccak-256 (go-ethereum `crypto.Keccak256Hash`)

The legacy Keccak (pre-FIPS padding byte `0x01`) with rate 1088 bits,
implemented over `Nat` lanes.  All recursion is structural so that concrete
hashes reduce inside the kernel. -/

def u64mask : Nat := 0xffffffffffffffff

def rotl64 (x n : Nat) : Nat :=
  ((x <<< n) ||| (x >>> (64 - n))) &&& u64mask

/-- Rotation offsets of the rho step, lanes ordered `x + 5*y`, one row
of the state per line. -/
def keccakRho : List Nat :=
  [0, 1, 62, 28, 27] ++ [36, 44, 6, 55, 20] ++ [3, 10, 43, 25, 39] ++
    [41, 45, 15, 21, 8] ++ [18, 2, 61, 56, 14]

/-- Round constants of the iota step, as decimal values. -/
def keccakRC : List Nat :=
  [1, 32898, 9223372036854808714,
   9223372039002292224, 32907, 2147483649,
   9223372039002292353, 9223372036854808585, 138,
   136, 2147516425, 2147483658,
   2147516555, 9223372036854775947, 9223372036854808713,
   9223372036854808579, 9223372036854808578, 9223372036854775936,
   32778, 9223372039002259466, 9223372039002292353,
   9223372036854808704, 2147483649, 9223372039002292232]

/-- One Keccak-f[1600] round: theta, rho, pi, chi, iota. -/
def keccakRound (a : List Nat) (rc : Nat) : List Nat :=
  let get := fun (l : List Nat) (i : Nat) => l.getD i 0
  let c := (List.range 5).map fun x =>
    get a x ^^^ get a (x + 5) ^^^ get a (x + 10) ^^^ get a (x + 15) ^^^ get a (x + 20)
  let d := (List.range 5).map fun x =>
    get c ((x + 4) % 5) ^^^ rotl64 (get c ((x + 1) % 5)) 1
  let a1 := (List.range 25).map fun i => get a i ^^^ get d (i % 5)
  let b := (List.range 25).foldl
    (fun acc i =>
      let x := i % 5
      let y := i / 5
      acc.set (y + 5 * ((2 * x + 3 * y) % 5)) (rotl64 (get a1 i) (get keccakRho i)))
    (List.replicate 25 0)
  let a2 := (List.range 25).map fun i =>
    let x := i % 5
    let y := i / 5
    get b i ^^^ ((get b ((x + 1) % 5 + 5 * y) ^^^ u64mask) &&& get b ((x + 2) % 5 + 5 * y))
  a2.set 0 (get a2 0 ^^^ rc)

def keccakF1600 (a : List Nat) : List Nat :=
  keccakRC.foldl keccakRound a

/-- Multi-rate padding with the original Keccak domain byte `0x01`,
to a multiple of the 136-byte rate. -/
def keccakPad (msg : List Nat) : List Nat :=
  let r := 136
  let padLen := r - msg.length % r
  if padLen == 1 then msg ++ [0x81]
  else msg ++ [0x01] ++ List.replicate (padLen - 2) 0 ++ [0x80]

/-- Xor one 136-byte block into the first 17 lanes, little-endian per lane. -/
def absorbBlock (a block : List Nat) : List Nat :=
  (List.range 25).map fun i =>
    if i < 17 then
      let lane := (List.range 8).foldl
        (fun acc j => acc ||| (block.getD (i * 8 + j) 0 <<< (8 * j))) 0
      a.getD i 0 ^^^ lane
    else a.getD i 0

/-- Absorb all 136-byte blocks; the fuel argument keeps the recursion
structural, any fuel at least the number of blocks gives the sponge state. -/
def keccakAbsorb : Nat → List Nat → List Nat → List Nat
  | _, a, [] => a
  | 0, a, _ => a
  | fuel + 1, a, l => keccakAbsorb fuel (keccakF1600 (absorbBlock a (l.take 136))) (l.drop 136)

/-- Keccak-256 digest (32 bytes) of a byte list. -/
def keccak256 (msg : List Nat) : List Nat :=
  let padded := keccakPad msg
  let st := keccakAbsorb padded.length (List.replicate 25 0) padded
  (List.range 32).map fun i => (st.getD (i / 8) 0 >>> (8 * (i % 8))) &&& 0xff

def hexDigits : List Char := "0123456789abcdef".data

def bytesToHex (bs : List Nat) : List Char :=
  bs.flatMap fun b => [hexDigits.getD (b / 16) '0', hexDigits.getD (b % 16) '0']

/-- `common.Hash.Hex()`: `0x`-prefixed lowercase hex of the 32 digest bytes. -/
def hashHex (bs : List Nat) : String :=
  "0x" ++ String.mk (bytesToHex bs)

def strBytes (s : String) : List Nat := s.data.map Char.toNat

/-! ### Go string helpers (`strings.Split`, `TrimSuffix`, `TrimSpace`,
`Fields`, `strings.Join`, `strconv.Itoa`), over `List Char` -/

/-- `strings.Split` with a single-character separator. -/
def splitOnChar (sep : Char) : List Char → List (List Char)
  | [] => [[]]
  | c :: rest =>
      let r := splitOnChar sep rest
      if c = sep then [] :: r
      else (c :: r.headD []) :: r.tail

/-- `strings.TrimSuffix` with a single-character suffix. -/
def trimSuffixChar (suf : Char) (l : List Char) : List Char :=
  if l.getLast? = some suf then l.dropLast else l

/-- The ASCII whitespace recognised by this model of `unicode.IsSpace`. -/
def isSpaceChar (c : Char) : Bool :=
  c = ' ' || c = '\t' || c = '\n' || c = '\r'

/-- `strings.TrimSpace` restricted to ASCII whitespace. -/
def trimSpace (l : List Char) : List Char :=
  ((l.dropWhile isSpaceChar).reverse.dropWhile isSpaceChar).reverse

/-- Split at every whitespace character (runs give empty pieces). -/
def splitWs : List Char → List (List Char)
  | [] => [[]]
  | c :: rest =>
      let r := splitWs rest
      if isSpaceChar c then [] :: r
      else (c :: r.headD []) :: r.tail

/-- `strings.Fields`: whitespace-separated tokens, empties dropped. -/
def goFields (l : List Char) : List (List Char) :=
  (splitWs l).filter fun t => !t.isEmpty

/-- `strings.Join` with a single-character separator. -/
def joinChar (sep : Char) : List (List Char) → List Char
  | [] => []
  | [x] => x
  | x :: y :: rest => x ++ sep :: joinChar sep (y :: rest)

/-- `strconv.Itoa` on a natural index. -/
def itoa (n : Nat) : List Char := (toString n).data

/-! ### Event signatures (`src/pkg/engine/event.go`) -/

/-- `engine.Event`; fields other than the signature play no role here. -/
structure Event where
  Contract : String
  EventSignature : String
  Name : String

/-- `engine.ArgType`. -/
structure ArgTypeC where
  Name : List Char
  Indexed : Bool
deriving DecidableEq

/-- The per-argument body of the loop in `ParseEventSignature`:
trims the argument, splits it into fields, strips an `indexed` marker in the
first or second position, then classifies as named / unnamed / malformed. -/
def parseOneArg (i : Nat) (arg : List Char) : List Char × ArgTypeC :=
  let parts := goFields (trimSpace arg)
  let st1 :=
    if 2 ≤ parts.length ∧ parts.headD [] = ("indexed".data) then
      (true, parts.tail)
    else (false, parts)
  let st2 :=
    if 2 ≤ st1.2.length ∧ st1.2.getD 1 [] = ("indexed".data) then
      (true, st1.2.take 1 ++ st1.2.drop 2)
    else st1
  let parts2 := st2.2
  if parts2.length = 2 then
    (parts2.headD [], ⟨parts2.getD 1 [], st2.1⟩)
  else if parts2.length = 1 then
    (itoa i, ⟨parts2.headD [], st2.1⟩)
  else
    ([], ⟨[], st2.1⟩)

/-- `Event.ParseEventSignature` (the `ArgType` version):
split on `(`, take the event name and the raw argument list, split the
arguments on `,` and classify each one.  The Go code indexes `parts[1]`
and so panics when the signature contains no `(`; every use below supplies
a signature containing one. -/
def parseEventSignature (e : Event) : List Char × List (List Char) × List ArgTypeC :=
  if e.EventSignature = "" then ([], [], [])
  else
    let parts := splitOnChar '(' e.EventSignature.data
    let eventName := parts.headD []
    let rawArgs := trimSuffixChar ')' (parts.getD 1 [])
    let argParts := splitOnChar ',' rawArgs
    let parsed := (argParts.enum).map fun p => parseOneArg p.1 p.2
    (eventName, parsed.map Prod.fst, parsed.map Prod.snd)

/-- `Event.GetTopic0FromEventSignature`: the zero hash for a degenerate
parse, otherwise Keccak-256 of `Name(type1,...,typeN)`. -/
def getTopic0FromEventSignature (e : Event) : List Nat :=
  let p := parseEventSignature e
  if p.1 = [] ∨ p.2.2 = [] then List.replicate 32 0
  else
    let types := p.2.2.map ArgTypeC.Name
    let funcSig := p.1 ++ '(' :: joinChar ',' types ++ [')']
    keccak256 (funcSig.map Char.toNat)

/-- An argument of a human-readable signature: an optional name, an
optional `indexed` marker and a type, as admitted by the parser. -/
structure SigArg where
  argName : Option (List Char)
  indexed : Bool
  argType : List Char
deriving DecidableEq

/-- Render one argument back to its source form, tokens separated by
single spaces. -/
def renderArg (a : SigArg) : List Char :=
  joinChar ' '
    ((match a.argName with | some n => [n] | none => []) ++
     (if a.indexed then [("indexed".data)] else []) ++ [a.argType])

/-- Render a full signature `Name(arg1,arg2,...)`. -/
def renderSignature (name : List Char) (args : List SigArg) : String :=
  String.mk (name ++ '(' :: joinChar ',' (args.map renderArg) ++ [')'])

/-- A token may appear inside a rendered signature argument: it is nonempty
and free of whitespace and of the `(`, `)` and `,` delimiters. -/
@[reducible] def goodToken (t : List Char) : Prop :=
  t ≠ [] ∧ ∀ c ∈ t, isSpaceChar c = false ∧ c ≠ '(' ∧ c ≠ ')' ∧ c ≠ ','

/-- Well-formedness of a rendered argument: both tokens are good and
neither is the literal `indexed`. -/
@[reducible] def goodArg (a : SigArg) : Prop :=
  goodToken a.argType ∧ a.argType ≠ ("indexed".data) ∧
    match a.argName with
    | some n => goodToken n ∧ n ≠ ("indexed".data)
    | none => True

instance goodArgDecidable (a : SigArg) : Decidable (goodArg a) := by
  rcases a with ⟨an, ind, ty⟩
  cases an <;> exact inferInstance

/-! ### JSON values

`Log.Data` is a `*json.RawMessage` in Go; it is represented here by its
decoded value.  Numbers are restricted to integers (Go decodes into
`float64`; every value the engine handles is integral). -/

inductive JVal where
  | jnull : JVal
  | jbool : Bool → JVal
  | jnum : Int → JVal
  | jstr : String → JVal
  | jarr : List JVal → JVal
  | jobj : List (String × JVal) → JVal

def lbraceC : Char := Char.ofNat 123

def rbraceC : Char := Char.ofNat 125

/-- `encoding/json` string escaping: quote, backslash, the common control
characters, other control characters as `\u00XX`, and the HTML-sensitive
`<`, `>`, `&` as `\u00XX` (the encoder's default HTML escaping). -/
def jsonEscapeChar (c : Char) : List Char :=
  if c = '"' then ['\\', '"']
  else if c = '\\' then ['\\', '\\']
  else if c = '\n' then ['\\', 'n']
  else if c = '\r' then ['\\', 'r']
  else if c = '\t' then ['\\', 't']
  else if c.toNat < 0x20 ∨ c = '<' ∨ c = '>' ∨ c = '&' then
    '\\' :: 'u' :: '0' :: '0' ::
      [hexDigits.getD (c.toNat / 16) '0', hexDigits.getD (c.toNat % 16) '0']
  else [c]

/-- `json.Marshal` of a string value. -/
def jsonMarshalString (s : String) : List Char :=
  '"' :: s.data.flatMap jsonEscapeChar ++ ['"']

mutual

/-- `json.Marshal` of a decoded value. -/
def jsonMarshal : JVal → List Char
  | .jnull => ('n' :: "ull".data)
  | .jbool true => ('t' :: "rue".data)
  | .jbool false => ('f' :: "alse".data)
  | .jnum n => (toString n).data
  | .jstr s => jsonMarshalString s
  | .jarr xs => '[' :: jsonMarshalArr xs ++ [']']
  | .jobj m => lbraceC :: jsonMarshalObj m ++ [rbraceC]

def jsonMarshalArr : List JVal → List Char
  | [] => []
  | [x] => jsonMarshal x
  | x :: y :: rest => jsonMarshal x ++ ',' :: jsonMarshalArr (y :: rest)

def jsonMarshalObj : List (String × JVal) → List Char
  | [] => []
  | [kv] => jsonMarshalString kv.1 ++ ':' :: jsonMarshal kv.2
  | kv :: kv2 :: rest =>
      jsonMarshalString kv.1 ++ ':' :: jsonMarshal kv.2 ++ ',' :: jsonMarshalObj (kv2 :: rest)

end

/-! ### Log records (`src/pkg/engine/log.go`) -/

/-- `engine.LogStatus` string constants. -/
def LogStatusSending : String := "sending"

def LogStatusPending : String := "pending"

def LogStatusSuccess : String := "success"

def LogStatusFail : String := "fail"

/-- `engine.Log`.  `Value` is a non-negative `big.Int` (an event amount),
timestamps are Unix counts, and `Data`/`ExtraData` stand for the decoded
raw JSON messages.  An object raw message is identified with its key-value
map, which is how both `GenerateUniqueHash` and the claims use it. -/
structure GoLog where
  Hash : String
  TxHash : String
  CreatedAt : Nat
  UpdatedAt : Nat
  Nonce : Int
  Sender : String
  To : String
  Value : Nat
  Data : Option JVal
  ExtraData : Option JVal
  Status : String

/-- Big-endian byte expansion with structural fuel; any fuel at least the
value itself is enough. -/
def natToBytesBEAux : Nat → Nat → List Nat
  | 0, _ => []
  | _ + 1, 0 => []
  | fuel + 1, n => natToBytesBEAux fuel (n / 256) ++ [n % 256]

/-- Minimal big-endian bytes of a `big.Int` value (`big.Int.Bytes`),
empty for zero. -/
def natToBytesBE (n : Nat) : List Nat := natToBytesBEAux n n

/-- `common.LeftPadBytes` to 32 bytes (longer inputs pass unchanged). -/
def leftPad32 (bs : List Nat) : List Nat :=
  if 32 ≤ bs.length then bs else List.replicate (32 - bs.length) 0 ++ bs

/-- Value of a hex digit character, `none` if not a digit. -/
def hexCharVal (c : Char) : Option Nat :=
  if '0' ≤ c ∧ c ≤ '9' then some (c.toNat - '0'.toNat)
  else if 'a' ≤ c ∧ c ≤ 'f' then some (c.toNat - 'a'.toNat + 10)
  else if 'A' ≤ c ∧ c ≤ 'F' then some (c.toNat - 'A'.toNat + 10)
  else none

/-- Decode hex digit pairs into bytes, stopping at the first non-digit
(`hex.DecodeString` returns the bytes decoded so far and an error that
`common.Hex2Bytes` discards). -/
def hexPairsDecode : List Char → List Nat
  | hi :: lo :: rest =>
      match hexCharVal hi, hexCharVal lo with
      | some h, some l => (h * 16 + l) :: hexPairsDecode rest
      | _, _ => []
  | _ => []

/-- `common.FromHex`: strip an optional `0x`/`0X` prefix, left-pad odd
lengths with `0`, decode. -/
def fromHex (s : String) : List Nat :=
  let cs := s.data
  let cs :=
    match cs with
    | '0' :: 'x' :: rest => rest
    | '0' :: 'X' :: rest => rest
    | l => l
  hexPairsDecode (if cs.length % 2 = 1 then '0' :: cs else cs)

/-- `sortedJSONBytes`: for an object, concatenate `json.Marshal(key)` then
`json.Marshal(value)` in sorted key order; any other value stands for its
raw bytes. -/
def sortedJSONBytes (d : JVal) : List Char :=
  match d with
  | .jobj m =>
      let keys := List.insertionSort (· ≤ ·) (m.map Prod.fst)
      keys.flatMap fun k =>
        jsonMarshalString k ++ jsonMarshal ((List.lookup k m).getD JVal.jnull)
  | v => jsonMarshal v

/-- `Log.GenerateUniqueHash`:
`keccak256( leftPad32(value bytes) || sortedJSONBytes(data) || fromHex(tx_hash) )`,
rendered as a `0x` hex string. -/
def generateUniqueHash (t : GoLog) : String :=
  let buf :=
    leftPad32 (natToBytesBE t.Value) ++
    (match t.Data with
     | some d => (sortedJSONBytes d).map Char.toNat
     | none => []) ++
    fromHex t.TxHash
  hashHex (keccak256 buf)

/-! ### Log store (`src/internal/db/log.go`)

The `t_logs_<suffix>` table is a list of rows; each SQL statement becomes
the corresponding transformation of that list.  Statement arguments are
bound positionally, as in the PostgreSQL extended protocol: an `Exec`
whose argument list does not fit the statement's placeholders fails
without touching the table. -/

/-- A row of the logs table. -/
structure LogRow where
  hash : String
  tx_hash : String
  nonce : Int
  sender : String
  dest : String
  value : String
  data : Option JVal
  extra_data : Option JVal
  status : String
  created_at : Nat
  updated_at : Nat

/-- A bound SQL argument value. -/
inductive DBVal where
  | s : String → DBVal
  | i : Int → DBVal
  | j : Option JVal → DBVal
  | t : Nat → DBVal

/-- The column list of `AddLog`'s INSERT (11 columns, `$1`..`$11`). -/
def addLogColumns : List String :=
  ["hash", "tx_hash", "nonce", "sender", "dest", "value",
   "data", "extra_data", "status", "created_at", "updated_at"]

/-- The argument list `AddLog` passes to `Exec`:
`lg.Hash, lg.TxHash, lg.Nonce, lg.To, lg.Value.String(), lg.Data,
lg.ExtraData, lg.Status, lg.CreatedAt, lg.UpdatedAt` — ten values. -/
def addLogArgs (lg : GoLog) : List DBVal :=
  [.s lg.Hash, .s lg.TxHash, .i lg.Nonce, .s lg.To, .s (toString lg.Value),
   .j lg.Data, .j lg.ExtraData, .s lg.Status, .t lg.CreatedAt, .t lg.UpdatedAt]

/-- Positional binding of arguments to the 11 columns of the logs INSERT;
`none` when the argument list does not match. -/
def bindLogRow : List DBVal → Option LogRow
  | [.s h, .s th, .i n, .s snd, .s dst, .s v, .j d, .j ed, .s st, .t ca, .t ua] =>
      some ⟨h, th, n, snd, dst, v, d, ed, st, ca, ua⟩
  | _ => none

def pgArgCountError : String := "expected 11 arguments, got 10"

/-- `LogDB.AddLog`: INSERT ... ON CONFLICT (hash) DO NOTHING, with the
argument list the source actually supplies. -/
def addLog (lg : GoLog) (table : List LogRow) : Except String (List LogRow) :=
  match bindLogRow (addLogArgs lg) with
  | none => .error pgArgCountError
  | some row =>
      if table.any fun r => r.hash = row.hash then .ok table
      else .ok (table ++ [row])

/-- The argument list of each INSERT issued by `AddLogs`
(`t.Hash, t.TxHash, t.Nonce, t.Sender, t.To, t.Value.String(), t.Data,
t.ExtraData, t.Status, t.CreatedAt, t.UpdatedAt` — eleven values). -/
def addLogsArgs (t : GoLog) : List DBVal :=
  [.s t.Hash, .s t.TxHash, .i t.Nonce, .s t.Sender, .s t.To, .s (toString t.Value),
   .j t.Data, .j t.ExtraData, .s t.Status, .t t.CreatedAt, .t t.UpdatedAt]

/-- The ON CONFLICT (hash) DO UPDATE branch of `AddLogs`: every listed
column is overwritten from EXCLUDED, `data` and `extra_data` through
COALESCE. -/
def upsertRow (new old : LogRow) : LogRow :=
  { old with
    tx_hash := new.tx_hash
    nonce := new.nonce
    sender := new.sender
    dest := new.dest
    value := new.value
    data := match new.data with | some d => some d | none => old.data
    extra_data := match new.extra_data with | some d => some d | none => old.extra_data
    status := new.status
    created_at := new.created_at
    updated_at := new.updated_at }

/-- One INSERT ... ON CONFLICT (hash) DO UPDATE of `AddLogs`. -/
def addLogsOne (lg : GoLog) (table : List LogRow) : Except String (List LogRow) :=
  match bindLogRow (addLogsArgs lg) with
  | none => .error pgArgCountError
  | some row =>
      if table.any fun r => r.hash = row.hash then
        .ok (table.map fun r => if r.hash = row.hash then upsertRow row r else r)
      else .ok (table ++ [row])

/-- `LogDB.AddLogs`: the inserts in order, stopping at the first error. -/
def addLogs (lgs : List GoLog) (table : List LogRow) : Except String (List LogRow) :=
  match lgs with
  | [] => .ok table
  | lg :: rest =>
      match addLogsOne lg table with
      | .ok t2 => addLogs rest t2
      | .error e => .error e

/-- `LogDB.SetStatus`: UPDATE ... SET status = $1 WHERE hash = $2 AND
status != 'success'.  The first parameter is the new status, the second
the row hash. -/
def setStatus (status hash : String) (table : List LogRow) : List LogRow :=
  table.map fun r =>
    if r.hash = hash ∧ r.status ≠ LogStatusSuccess then { r with status := status } else r

/-- `LogDB.RemoveLog`: DELETE ... WHERE hash = $1 AND status != 'success'. -/
def removeLog (hash : String) (table : List LogRow) : List LogRow :=
  table.filter fun r => ¬(r.hash = hash ∧ r.status ≠ LogStatusSuccess)

/-! ### UserOp store (`src/internal/db/userop.go`) -/

/-- A row of the `t_userops_<suffix>` table. -/
structure UserOpRow where
  userOpHash : String
  txHash : Option String
  status : String
  validUntil : Int
  validAfter : Int
  sender : String
  paymaster : String
  entryPoint : String
  createdAt : Int
  updatedAt : Int
deriving DecidableEq

def UserOpStatusPending : String := "pending"

def UserOpStatusSuccess : String := "success"

def UserOpStatusReverted : String := "reverted"

def UserOpStatusTimeout : String := "timeout"

/-- `UserOpDB.UpdateStatus`: UPDATE ... SET status = $1, updated_at = $2
WHERE user_op_hash = $3. -/
def updateStatus (hash status : String) (now : Int) (t : List UserOpRow) : List UserOpRow :=
  t.map fun r =>
    if r.userOpHash = hash then { r with status := status, updatedAt := now } else r

/-- `UserOpDB.MarkExpiredAsReverted`: UPDATE ... SET status = 'reverted',
updated_at = now WHERE status = 'pending' AND valid_until <= now. -/
def markExpiredAsReverted (now : Int) (t : List UserOpRow) : List UserOpRow :=
  t.map fun r =>
    if r.status = UserOpStatusPending ∧ r.validUntil ≤ now then
      { r with status := UserOpStatusReverted, updatedAt := now }
    else r

/-- Modelled from the spec: `UserOpDB.GetTimeoutUserOpsOlderThan` is called
by the timeout reconciler but its definition is not among the provided
sources.  Per the spec it fetches all user operations with
`status = timeout` older than the given number of minutes; age is taken
from the row's `updated_at`. -/
def getTimeoutUserOpsOlderThan (minutes now : Int) (t : List UserOpRow) : List UserOpRow :=
  t.filter fun r => r.status = UserOpStatusTimeout ∧ r.updatedAt + minutes * 60 ≤ now

/-- Modelled from the spec: `UserOpDB.UpdateStatusToSuccess` is called by
the timeout reconciler but its definition is not among the provided
sources.  Per the spec it marks the operation `success`. -/
def updateStatusToSuccess (hash : String) (now : Int) (t : List UserOpRow) : List UserOpRow :=
  updateStatus hash UserOpStatusSuccess now t

/-! ### Timeout reconciler (`src/internal/queue/timeout.go`) -/

/-- The chain RPC: decoded request parameters to a decoded result, where
`none` is a JSON `null` result. -/
def ChainCall := JVal → Except String (Option JVal)

/-- `TimeoutService.checkReceipt`: call `eth_getTransactionReceipt` with
`[txHash]`; a receipt exists iff the call succeeds with a non-null
result. -/
def checkReceipt (chain : ChainCall) (txHash : String) : Bool :=
  match chain (.jarr [.jstr txHash]) with
  | .ok (some _) => true
  | _ => false

/-- The body of `checkTimeoutUserOps`' loop for one fetched operation:
no transaction hash (or an empty one) marks the operation reverted,
otherwise `checkReceipt` decides between success and reverted. -/
def timeoutStep (chain : ChainCall) (now : Int) (acc : List UserOpRow)
    (op : UserOpRow) : List UserOpRow :=
  match op.txHash with
  | none => updateStatus op.userOpHash UserOpStatusReverted now acc
  | some h =>
      if h = "" then updateStatus op.userOpHash UserOpStatusReverted now acc
      else if checkReceipt chain h then updateStatusToSuccess op.userOpHash now acc
      else updateStatus op.userOpHash UserOpStatusReverted now acc

/-- `TimeoutService.checkTimeoutUserOps`: fetch the timeout operations
older than two minutes; no operations is a no-op; otherwise run the loop
body over them. -/
def checkTimeoutUserOps (chain : ChainCall) (now : Int) (t : List UserOpRow) : List UserOpRow :=
  let ops := getTimeoutUserOpsOlderThan 2 now t
  if ops.length = 0 then t
  else ops.foldl (timeoutStep chain now) t

/-- The ticker period of `TimeoutService.Start`, in seconds
(`1 * time.Minute`). -/
def timeoutTickerSeconds : Nat := 60

/-- `TimeoutService.Start` as a function of the number of elapsed ticks:
one pass runs immediately at start (tick count 0), then one more per
tick.  `nows` gives the clock reading at each pass. -/
def timeoutStart (chain : ChainCall) (nows : Nat → Int) (t : List UserOpRow) :
    Nat → List UserOpRow
  | 0 => checkTimeoutUserOps chain (nows 0) t
  | n + 1 => checkTimeoutUserOps chain (nows (n + 1)) (timeoutStart chain nows t n)

/-! ### Receipt shim (`src/unnamed/part_006`, chain service) -/

/-- `db.StoredUserOp`, the fields the shim reads. -/
structure StoredUserOp where
  userOpHash : String
  txHash : Option String
  status : String

/-- `json.Unmarshal(params, &hashParams)` succeeds iff the decoded params
are an array of strings. -/
def asStringArray : JVal → Option (List String)
  | .jarr xs =>
      xs.foldr
        (fun v acc =>
          match v, acc with
          | .jstr s, some l => some (s :: l)
          | _, _ => none)
        (some [])
  | _ => none

/-- `UserOpDB.GetUserOp` as seen by the shim: a lookup that can fail, and
returns `none` when no row matches. -/
def UserOpLookup := String → Except String (Option StoredUserOp)

/-- `Service.EthGetTransactionReceipt`: when the params are a non-empty
string array whose first element matches a stored user operation, use its
`tx_hash` (forwarding the call with `[tx_hash]` when set and non-empty,
returning null otherwise); in every other case forward the original
params to the chain unchanged. -/
def ethGetTransactionReceipt (dbGet : UserOpLookup) (chain : ChainCall)
    (params : JVal) : Except String (Option JVal) :=
  let fallThrough := chain params
  match asStringArray params with
  | some (hash :: _) =>
      match dbGet hash with
      | .ok (some op) =>
          match op.txHash with
          | some tx => if tx ≠ "" then chain (.jarr [.jstr tx]) else .ok none
          | none => .ok none
      | _ => fallThrough
  | _ => fallThrough

/-! ### Fee estimation (`src/unnamed/part_013`, `EthService.GetFeeEstimates`)

Hex quantities are carried as already-decoded `Nat`s. -/

/-- `FeeHistoryResult` with decoded quantities. -/
structure FeeHistoryResult where
  baseFeePerGas : List Nat
  reward : List (List Nat)

/-- The node-side inputs of fee estimation: `eth_feeHistory` and the
`eth_maxPriorityFeePerGas` fallback hint. -/
structure FeeOracle where
  feeHistory : Nat → List Nat → Except String FeeHistoryResult
  maxPriorityFeePerGas : Except String Nat

/-- The positive median rewards collected from the fee history. -/
def collectedPriorityFees (fh : FeeHistoryResult) : List Nat :=
  fh.reward.filterMap fun rewards =>
    match rewards.head? with
    | some fee => if 0 < fee then some fee else none
    | none => none

/-- `EthService.GetFeeEstimates`: fee history of the last 5 blocks at the
50th percentile; the priority fee is the average of the positive
first-percentile rewards plus a 20% buffer, falling back to the node hint
when none were collected; the max fee is the latest base fee plus a 25%
buffer plus the priority fee.  Returns `(maxFeePerGas, maxPriorityFeePerGas)`. -/
def getFeeEstimates (o : FeeOracle) : Except String (Nat × Nat) :=
  match o.feeHistory 5 [50] with
  | .error e => .error ("error getting fee history: " ++ e)
  | .ok feeHistory =>
      if feeHistory.baseFeePerGas.length = 0 then
        .error "no base fee data in fee history"
      else
        let latestBaseFee := feeHistory.baseFeePerGas.getLastD 0
        let priorityFees := collectedPriorityFees feeHistory
        match (if 0 < priorityFees.length then
                 Except.ok (priorityFees.foldl (· + ·) 0 / priorityFees.length)
               else o.maxPriorityFeePerGas) with
        | .error e => .error ("error getting max priority fee: " ++ e)
        | .ok avgPriorityFee =>
            let maxPriorityFeePerGas := avgPriorityFee + avgPriorityFee / 5
            let maxFeePerGas := (latestBaseFee + latestBaseFee / 4) + maxPriorityFeePerGas
            .ok (maxFeePerGas, maxPriorityFeePerGas)

/-! ### UserOp queue status flips (`src/internal/queue/userop.go`)

After a failed broadcast with an insufficient-funds error, `Process` runs
`ldb.SetStatus(log.Hash, string(engine.LogStatusFail))` for every inserted
optimistic record; after a successful broadcast it runs
`ldb.SetStatus(log.Hash, string(engine.LogStatusPending))`.  `SetStatus`'s
parameters are `(status, hash)`, so `log.Hash` is bound to `status` and
the literal status string to `hash`. -/

/-- The insufficient-funds branch of `Process` over the log table: the
`SetStatus` call for each inserted log, with the arguments exactly as the
source passes them. -/
def processFlipFail (insertedLogs : List GoLog) (table : List LogRow) : List LogRow :=
  insertedLogs.foldl (fun t log => setStatus log.Hash LogStatusFail t) table

/-- The successful-broadcast branch of `Process` over the log table: the
`SetStatus` call for each inserted log, with the arguments exactly as the
source passes them. -/
def processFlipPending (insertedLogs : List GoLog) (table : List LogRow) : List LogRow :=
  insertedLogs.foldl (fun t log => setStatus log.Hash LogStatusPending t) table

/-! ### WebSocket connection pool (`src/internal/ws/connections.go`,
query-keyed version) -/

/-- A connected client: an identity and the URL query it subscribed
with. -/
structure WSClient where
  id : Nat
  query : String

/-- `ConnectionPool`: the `clients` map keyed by query string, and the
`open` flag (named `opened` here because `open` is reserved in Lean). -/
structure PoolState where
  clients : List (String × List WSClient)
  opened : Bool

/-- Go `delete(m, k)` on the query-keyed map. -/
def eraseQuery (q : String) (m : List (String × List WSClient)) :
    List (String × List WSClient) :=
  m.filter fun kv => kv.1 ≠ q

/-- `ConnectionPool.Close`: the pool marks itself not open. -/
def poolClose (cm : PoolState) : PoolState :=
  { cm with opened := false }

/-- The `unregister` case of `ConnectionPool.Run`, in source order: if the
client's query has an entry, delete the whole entry keyed by the query
(then re-check the now-deleted entry's size and delete again), and when
the map has become empty return from the loop, which triggers the
deferred `Close`.  Returns the pool state and whether the loop
returned. -/
def runUnregister (cm : PoolState) (client : WSClient) : PoolState × Bool :=
  let cm1 :=
    if (cm.clients.lookup client.query).isSome then
      let m1 := eraseQuery client.query cm.clients
      let m2 :=
        if ((m1.lookup client.query).getD []).length = 0 then
          eraseQuery client.query m1
        else m1
      { cm with clients := m2 }
    else cm
  if cm1.clients.length = 0 then (poolClose cm1, true) else (cm1, false)

/-- `ConnectionPool.BroadcastMessage`: the clients the message is offered
to are exactly those registered under the given query. -/
def broadcastRecipients (cm : PoolState) (query : String) : List WSClient :=
  (cm.clients.lookup query).getD []

/-! ## Helper lemmas -/

/-- `setStatus` cannot touch any row when no row's hash equals the bound
`hash` parameter. -/
theorem setStatus_eq_of_no_hash {h : String} {t : List LogRow}
    (hn : ∀ r ∈ t, r.hash ≠ h) (s : String) : setStatus s h t = t := by
  induction t with
  | nil => rfl
  | cons r rest ih =>
      have hr := hn r (List.mem_cons_self r rest)
      have hrest := ih fun r' hr' => hn r' (List.mem_cons_of_mem r hr')
      simp only [setStatus, List.map_cons] at hrest ⊢
      rw [hrest]
      simp [hr]

/-- A status flip by `processFlipFail` leaves the table untouched whenever
no stored row's hash is the literal string `fail`. -/
theorem processFlipFail_eq_of_no_fail_hash {t : List LogRow}
    (hn : ∀ r ∈ t, r.hash ≠ LogStatusFail) (logs : List GoLog) :
    processFlipFail logs t = t := by
  induction logs with
  | nil => rfl
  | cons lg rest ih =>
      show processFlipFail rest (setStatus lg.Hash LogStatusFail t) = t
      rw [setStatus_eq_of_no_hash hn]
      exact ih

/-- A status flip by `processFlipPending` leaves the table untouched
whenever no stored row's hash is the literal string `pending`. -/
theorem processFlipPending_eq_of_no_pending_hash {t : List LogRow}
    (hn : ∀ r ∈ t, r.hash ≠ LogStatusPending) (logs : List GoLog) :
    processFlipPending logs t = t := by
  induction logs with
  | nil => rfl
  | cons lg rest ih =>
      show processFlipPending rest (setStatus lg.Hash LogStatusPending t) = t
      rw [setStatus_eq_of_no_hash hn]
      exact ih

/-! ## Claims -/

/-- Claim C9: every call to `LogDB.AddLog` fails and inserts no row — the
INSERT lists 11 columns bound by `$1`..`$11` but only 10 argument values
are supplied, the `sender` value being omitted so that `lg.To` sits in
the `sender` position and everything after it is shifted; the
single-record optimistic insertion therefore never succeeds. -/
theorem addLog_always_fails (lg : GoLog) (table : List LogRow) :
    addLog lg table = .error pgArgCountError ∧
    addLogColumns.length = 11 ∧ (addLogArgs lg).length = 10 ∧
    addLogColumns.get? 3 = some "sender" ∧ (addLogArgs lg).get? 3 = some (.s lg.To) := by
  exact ⟨rfl, rfl, rfl, rfl, rfl⟩

/-- The concrete optimistic record of claim C4's failing input, as built
by `Process` (status `sending`), and its stored row. -/
def c4Log : GoLog :=
  { Hash := "0x0a", TxHash := "0x01", CreatedAt := 0, UpdatedAt := 0, Nonce := 0,
    Sender := "0xs", To := "0xd", Value := 0, Data := none, ExtraData := none,
    Status := LogStatusSending }

def c4Row : LogRow :=
  { hash := "0x0a", tx_hash := "0x01", nonce := 0, sender := "0xs", dest := "0xd",
    value := "0", data := none, extra_data := none, status := LogStatusSending,
    created_at := 0, updated_at := 0 }

/-- Claim C4: the queue's status flips do not reach the store.  `Process`
calls `SetStatus(log.Hash, "fail")` and `SetStatus(log.Hash, "pending")`,
but `SetStatus(status, hash)` takes the status first, so the UPDATE binds
the literal status string as the row hash and changes nothing: at the
failing input (one optimistic record of hash `0x0a` in a batch whose
broadcast hits an insufficient-funds error) the stored status stays
`sending`, and the same holds for any table without a row whose hash is
the literal `fail` or `pending`. -/
theorem process_status_flips_miss_store :
    processFlipFail [c4Log] [c4Row] = [c4Row] ∧
    processFlipPending [c4Log] [c4Row] = [c4Row] ∧
    c4Row.status = LogStatusSending ∧
    (∀ (t : List LogRow) (logs : List GoLog),
      (∀ r ∈ t, r.hash ≠ LogStatusFail) → processFlipFail logs t = t) := by
  refine ⟨rfl, rfl, rfl, fun t logs hn => processFlipFail_eq_of_no_fail_hash hn logs⟩

/-- Assoc-list lookup misses when no key matches. -/
theorem lookup_none_of_no_key {q : String} :
    ∀ (m : List (String × List WSClient)), (∀ kv ∈ m, kv.1 ≠ q) → m.lookup q = none := by
  intro m
  induction m with
  | nil => intro _; rfl
  | cons kv rest ih =>
      intro hno
      have hk : (q == kv.1) = false := by
        simp [Ne.symm (hno kv (List.mem_cons_self kv rest))]
      have := ih fun kv' h' => hno kv' (List.mem_cons_of_mem kv h')
      simpa [List.lookup, hk] using this

/-- Deleting a key from the client registry makes its lookup miss. -/
theorem lookup_eraseQuery (q : String) (m : List (String × List WSClient)) :
    (eraseQuery q m).lookup q = none := by
  refine lookup_none_of_no_key _ fun kv hkv => ?_
  have := List.of_mem_filter hkv
  simpa using this

/-- Claim C10: unregistering one client deletes the whole client set of
its query string, so siblings with the same query are dropped from the
registry and get no further broadcasts; and when no other query strings
were registered the run loop returns and the deferred `Close` marks the
pool not open. -/
theorem run_unregister_drops_query_set (cm : PoolState) (c : WSClient)
    (hreg : (cm.clients.lookup c.query).isSome = true) :
    ((runUnregister cm c).1.clients.lookup c.query = none) ∧
    broadcastRecipients (runUnregister cm c).1 c.query = [] ∧
    ((∀ kv ∈ cm.clients, kv.1 = c.query) →
      (runUnregister cm c).2 = true ∧ (runUnregister cm c).1.opened = false) := by
  have hcase : (runUnregister cm c).1.clients =
        eraseQuery c.query (eraseQuery c.query cm.clients) ∨
      (runUnregister cm c).1.clients = eraseQuery c.query cm.clients := by
    simp only [runUnregister, hreg, if_true]
    by_cases h1 : (((eraseQuery c.query cm.clients).lookup c.query).getD []).length = 0
    · simp only [if_pos h1]
      by_cases h2 : (eraseQuery c.query (eraseQuery c.query cm.clients)).length = 0
      · simp only [if_pos h2, poolClose]
        exact Or.inl trivial
      · simp only [if_neg h2]
        exact Or.inl trivial
    · simp only [if_neg h1]
      by_cases h2 : (eraseQuery c.query cm.clients).length = 0
      · simp only [if_pos h2, poolClose]
        exact Or.inr trivial
      · simp only [if_neg h2]
        exact Or.inr trivial
  have hclients : (runUnregister cm c).1.clients.lookup c.query = none := by
    rcases hcase with hc | hc <;> rw [hc] <;> exact lookup_eraseQuery _ _
  refine ⟨hclients, ?_, ?_⟩
  · simp [broadcastRecipients, hclients]
  · intro hall
    have herase : eraseQuery c.query cm.clients = [] := by
      simp only [eraseQuery, List.filter_eq_nil_iff]
      intro kv hkv
      simp [hall kv hkv]
    simp only [runUnregister, hreg, if_true, herase]
    simp [eraseQuery, poolClose]

/-- The concrete pool of claim C10's witness: two clients registered
under the same query string. -/
def c10Pool : PoolState := ⟨[("q", [⟨1, "q"⟩, ⟨2, "q"⟩])], true⟩

def c10Client : WSClient := ⟨1, "q"⟩

/-- Witness for C10: unregistering the first of the two clients empties
the registry, stops the run loop and closes the pool. -/
theorem run_unregister_drops_query_set_witness :
    ((c10Pool.clients.lookup c10Client.query).isSome = true) ∧
    ((runUnregister c10Pool c10Client).1.clients.lookup c10Client.query = none ∧
      broadcastRecipients (runUnregister c10Pool c10Client).1 c10Client.query = [] ∧
      ((∀ kv ∈ c10Pool.clients, kv.1 = c10Client.query) →
        (runUnregister c10Pool c10Client).2 = true ∧
        (runUnregister c10Pool c10Client).1.opened = false)) :=
  ⟨by decide, run_unregister_drops_query_set c10Pool c10Client (by decide)⟩

/-- Claim C3: `eth_getTransactionReceipt` with a single hash parameter —
a stored user operation with a set, non-empty `tx_hash` forwards the call
with that hash; a stored user operation without one answers null with no
error; no stored match forwards the original params unchanged. -/
theorem eth_get_receipt_cases (dbGet : UserOpLookup) (chain : ChainCall)
    (h : String) (op : StoredUserOp) :
    (∀ tx, dbGet h = .ok (some op) → op.txHash = some tx → tx ≠ "" →
      ethGetTransactionReceipt dbGet chain (.jarr [.jstr h]) = chain (.jarr [.jstr tx])) ∧
    (dbGet h = .ok (some op) → (op.txHash = none ∨ op.txHash = some "") →
      ethGetTransactionReceipt dbGet chain (.jarr [.jstr h]) = .ok none) ∧
    (dbGet h = .ok none →
      ethGetTransactionReceipt dbGet chain (.jarr [.jstr h]) = chain (.jarr [.jstr h])) := by
  have hparse : asStringArray (.jarr [.jstr h]) = some [h] := rfl
  refine ⟨?_, ?_, ?_⟩
  · intro tx hdb htx hne
    simp [ethGetTransactionReceipt, hparse, hdb, htx, hne]
  · intro hdb htx
    rcases htx with htx | htx <;> simp [ethGetTransactionReceipt, hparse, hdb, htx]
  · intro hdb
    simp [ethGetTransactionReceipt, hparse, hdb]

/-- The concrete store and chain of claim C3's witness. -/
def c3Op : StoredUserOp := ⟨"0xop", some "0xbundle", "submitted"⟩

def c3OpPending : StoredUserOp := ⟨"0xop2", none, "pending"⟩

def c3Db : UserOpLookup := fun s =>
  if s = "0xop" then .ok (some c3Op)
  else if s = "0xop2" then .ok (some c3OpPending)
  else .ok none

def c3Chain : ChainCall := fun p => .ok (some p)

/-- Witness for C3: the three branches at a concrete store holding one
submitted and one pending operation. -/
theorem eth_get_receipt_cases_witness :
    (ethGetTransactionReceipt c3Db c3Chain (.jarr [.jstr "0xop"]) =
      c3Chain (.jarr [.jstr "0xbundle"])) ∧
    (ethGetTransactionReceipt c3Db c3Chain (.jarr [.jstr "0xop2"]) = .ok none) ∧
    (ethGetTransactionReceipt c3Db c3Chain (.jarr [.jstr "0xzz"]) =
      c3Chain (.jarr [.jstr "0xzz"])) :=
  ⟨(eth_get_receipt_cases c3Db c3Chain "0xop" c3Op).1 "0xbundle" (by simp [c3Db]) rfl
      (by simp),
   (eth_get_receipt_cases c3Db c3Chain "0xop2" c3OpPending).2.1 (by simp [c3Db]) (Or.inl rfl),
   (eth_get_receipt_cases c3Db c3Chain "0xzz" c3Op).2.2 (by simp [c3Db])⟩

/-- Claim C8: fee estimation reads the fee history of the last 5 blocks at
the 50th percentile; the returned priority fee is the average of the
collected positive rewards plus a fifth of it, with the node hint as the
average when nothing was collected; the returned max fee adds the latest
base fee plus a quarter of it. -/
theorem getFeeEstimates_formula (o : FeeOracle) (fh : FeeHistoryResult) (hint : Nat)
    (hh : o.feeHistory 5 [50] = .ok fh) (hb : fh.baseFeePerGas ≠ []) :
    (0 < (collectedPriorityFees fh).length →
      getFeeEstimates o =
        .ok (let base := fh.baseFeePerGas.getLastD 0
             let fees := collectedPriorityFees fh
             let avg := fees.foldl (· + ·) 0 / fees.length
             ((base + base / 4) + (avg + avg / 5), avg + avg / 5))) ∧
    (collectedPriorityFees fh = [] →
      o.maxPriorityFeePerGas = .ok hint →
      getFeeEstimates o =
        .ok (let base := fh.baseFeePerGas.getLastD 0
             ((base + base / 4) + (hint + hint / 5), hint + hint / 5))) := by
  have hlen : fh.baseFeePerGas.length ≠ 0 := by
    simpa [List.length_eq_zero] using hb
  constructor
  · intro hpos
    unfold getFeeEstimates
    rw [hh]
    simp only [if_neg hlen, if_pos hpos]
  · intro hnone hhint
    unfold getFeeEstimates
    rw [hh]
    have : ¬(0 < (collectedPriorityFees fh).length) := by simp [hnone]
    simp only [if_neg hlen, if_neg this, hhint]

/-- The fee histories of claim C8's witness: five base fees with three
positive median rewards, and a two-block history with no positive
reward. -/
def c8Fh : FeeHistoryResult := ⟨[100, 100, 100, 100, 200], [[10], [0], [20], [], [33]]⟩

def c8FhEmpty : FeeHistoryResult := ⟨[100, 200], [[], [0]]⟩

def c8Oracle : FeeOracle :=
  { feeHistory := fun n ps =>
      if n = 5 ∧ ps = [50] then .ok c8Fh
      else .error "unexpected fee history request"
    maxPriorityFeePerGas := .ok 7 }

def c8OracleEmpty : FeeOracle :=
  { feeHistory := fun n ps =>
      if n = 5 ∧ ps = [50] then .ok c8FhEmpty
      else .error "unexpected fee history request"
    maxPriorityFeePerGas := .ok 7 }

/-- Witness for C8: with rewards `10, 20, 33` the average is `21`, the
priority fee `25` and the max fee `275`; with no positive rewards the
hint `7` gives priority fee `8` and max fee `258`. -/
theorem getFeeEstimates_formula_witness :
    getFeeEstimates c8Oracle = .ok (275, 25) ∧
    getFeeEstimates c8OracleEmpty = .ok (258, 8) := by
  constructor
  · have h := (getFeeEstimates_formula c8Oracle c8Fh 7 rfl (by decide)).1 (by decide)
    exact h.trans (by rfl)
  · have h := (getFeeEstimates_formula c8OracleEmpty c8FhEmpty 7 rfl (by decide)).2
      (by decide) rfl
    exact h.trans (by rfl)

/-- The success row of claim C2's counterexample. -/
def c2Row : LogRow :=
  { hash := "0x0b", tx_hash := "0x01", nonce := 0, sender := "s", dest := "d",
    value := "1", data := none, extra_data := none, status := LogStatusSuccess,
    created_at := 0, updated_at := 0 }

/-- A log upserted through `AddLogs` with the same hash and status
`sending`. -/
def c2Log : GoLog :=
  { Hash := "0x0b", TxHash := "0x02", CreatedAt := 5, UpdatedAt := 6, Nonce := 1,
    Sender := "s2", To := "d2", Value := 2, Data := none, ExtraData := none,
    Status := LogStatusSending }

/-- What the counterexample's table row becomes. -/
def c2RowAfter : LogRow :=
  { hash := "0x0b", tx_hash := "0x02", nonce := 1, sender := "s2", dest := "d2",
    value := "2", data := none, extra_data := none, status := LogStatusSending,
    created_at := 5, updated_at := 6 }

/-- Counterexample to claim C2 as stated: `AddLogs` on a table holding a
`success` row with the same hash overwrites its status with the incoming
`sending`. -/
theorem addLogs_downgrades_success :
    c2Row.status = LogStatusSuccess ∧ c2Log.Hash = c2Row.hash ∧
    addLogs [c2Log] [c2Row] = .ok [c2RowAfter] ∧
    c2RowAfter.status = LogStatusSending := by
  refine ⟨rfl, rfl, ?_, rfl⟩
  rfl

/-- Claim C2, amended: `SetStatus` leaves rows whose status is `success`
unchanged, `RemoveLog` deletes only rows whose status is not `success`,
and `AddLog` preserves the invariant vacuously because it always fails
without touching the table; but `AddLogs`' upsert overwrites the
conflicting row's status with the incoming log's status unconditionally,
so a later `AddLogs` call can move a `success` row to `sending`,
`pending` or `fail`. -/
theorem log_store_success_rows (s h : String) (t : List LogRow) (r : LogRow)
    (hmem : r ∈ t) (hsucc : r.status = LogStatusSuccess) :
    r ∈ setStatus s h t ∧
    r ∈ removeLog h t ∧
    (∀ lg : GoLog, addLog lg t = .error pgArgCountError) ∧
    (∀ (lg : GoLog) (row : LogRow), bindLogRow (addLogsArgs lg) = some row →
      r.hash = lg.Hash →
      addLogsOne lg t =
        .ok (t.map fun r' => if r'.hash = row.hash then upsertRow row r' else r') ∧
      (upsertRow row r).status = lg.Status) := by
  refine ⟨?_, ?_, fun _ => rfl, ?_⟩
  · refine List.mem_map.mpr ⟨r, hmem, ?_⟩
    simp [hsucc]
  · refine List.mem_filter.mpr ⟨hmem, ?_⟩
    simp [hsucc]
  · intro lg row hbind hhash
    have hrow : row = ⟨lg.Hash, lg.TxHash, lg.Nonce, lg.Sender, lg.To, toString lg.Value,
        lg.Data, lg.ExtraData, lg.Status, lg.CreatedAt, lg.UpdatedAt⟩ := by
      have : bindLogRow (addLogsArgs lg) =
          some ⟨lg.Hash, lg.TxHash, lg.Nonce, lg.Sender, lg.To, toString lg.Value,
            lg.Data, lg.ExtraData, lg.Status, lg.CreatedAt, lg.UpdatedAt⟩ := rfl
      rw [this] at hbind
      exact (Option.some.injEq _ _ ▸ hbind).symm
    have hany : t.any (fun r' => r'.hash = row.hash) = true := by
      refine List.any_eq_true.mpr ⟨r, hmem, ?_⟩
      simp [hrow, hhash]
    constructor
    · unfold addLogsOne
      rw [hbind]
      simp [hany]
    · simp [upsertRow, hrow]

/-- Witness for C2's amended statement: the success row of the
counterexample's table also survives `SetStatus` and `RemoveLog`. -/
theorem log_store_success_rows_witness :
    c2Row ∈ setStatus LogStatusFail "0x0b" [c2Row] ∧
    c2Row ∈ removeLog "0x0b" [c2Row] ∧
    (∀ lg : GoLog, addLog lg [c2Row] = .error pgArgCountError) ∧
    (∀ (lg : GoLog) (row : LogRow), bindLogRow (addLogsArgs lg) = some row →
      c2Row.hash = lg.Hash →
      addLogsOne lg [c2Row] =
        .ok ([c2Row].map fun r' => if r'.hash = row.hash then upsertRow row r' else r') ∧
      (upsertRow row c2Row).status = lg.Status) :=
  log_store_success_rows LogStatusFail "0x0b" [c2Row] c2Row (by simp) rfl

/-- `updateStatus` keeps any row whose hash differs from the bound one. -/
theorem updateStatus_mem_of_ne {hash st : String} {now : Int} {t : List UserOpRow}
    {r : UserOpRow} (hne : r.userOpHash ≠ hash) (hmem : r ∈ t) :
    r ∈ updateStatus hash st now t := by
  refine List.mem_map.mpr ⟨r, hmem, ?_⟩
  simp [hne]

/-- One reconciliation step keeps any row whose hash differs from the
processed operation's. -/
theorem timeoutStep_mem_of_ne {chain : ChainCall} {now : Int} {t : List UserOpRow}
    {r op : UserOpRow} (hne : r.userOpHash ≠ op.userOpHash) (hmem : r ∈ t) :
    r ∈ timeoutStep chain now t op := by
  unfold timeoutStep
  cases op.txHash with
  | none => exact updateStatus_mem_of_ne hne hmem
  | some h =>
      by_cases hh : h = ""
      · simp only [if_pos hh]
        exact updateStatus_mem_of_ne hne hmem
      · simp only [if_neg hh]
        by_cases hr : checkReceipt chain h
        · simp only [if_pos hr]
          exact updateStatus_mem_of_ne hne hmem
        · simp only [if_neg hr]
          exact updateStatus_mem_of_ne hne hmem

/-- The reconciliation loop keeps any row whose hash matches none of the
processed operations. -/
theorem timeoutFold_mem_of_skip (chain : ChainCall) (now : Int) :
    ∀ (ops acc : List UserOpRow) (r : UserOpRow), r ∈ acc →
      (∀ op ∈ ops, op.userOpHash ≠ r.userOpHash) →
      r ∈ ops.foldl (timeoutStep chain now) acc := by
  intro ops
  induction ops with
  | nil => intro acc r hmem _; exact hmem
  | cons o rest ih =>
      intro acc r hmem hno
      refine ih _ r ?_ fun op' hop' => hno op' (List.mem_cons_of_mem o hop')
      exact timeoutStep_mem_of_ne (Ne.symm (hno o (List.mem_cons_self o rest))) hmem

/-- The status the loop body assigns to a fetched operation. -/
def timeoutTargetStatus (chain : ChainCall) (op : UserOpRow) : String :=
  match op.txHash with
  | none => UserOpStatusReverted
  | some h =>
      if h = "" then UserOpStatusReverted
      else if checkReceipt chain h then UserOpStatusSuccess else UserOpStatusReverted

/-- One reconciliation step is exactly an `UpdateStatus` to the target
status. -/
theorem timeoutStep_eq_updateStatus (chain : ChainCall) (now : Int)
    (acc : List UserOpRow) (op : UserOpRow) :
    timeoutStep chain now acc op =
      updateStatus op.userOpHash (timeoutTargetStatus chain op) now acc := by
  unfold timeoutStep timeoutTargetStatus
  cases hx : op.txHash with
  | none => rfl
  | some h =>
      by_cases hh : h = ""
      · simp only [if_pos hh]
      · simp only [if_neg hh]
        by_cases hr : checkReceipt chain h
        · simp only [if_pos hr]
          rfl
        · simp only [if_neg hr, Bool.false_eq_true]

/-- A matching row reaches the assigned status through `UpdateStatus`. -/
theorem updateStatus_mem_self {hash st : String} {now : Int} {t : List UserOpRow}
    {r : UserOpRow} (hmem : r ∈ t) (hh : r.userOpHash = hash) :
    { r with status := st, updatedAt := now } ∈ updateStatus hash st now t := by
  refine List.mem_map.mpr ⟨r, hmem, ?_⟩
  simp [updateStatus, hh]

theorem timeoutStep_target {chain : ChainCall} {now : Int} {acc : List UserOpRow}
    {op : UserOpRow} (hmem : op ∈ acc) :
    { op with status := timeoutTargetStatus chain op, updatedAt := now } ∈
      timeoutStep chain now acc op := by
  rw [timeoutStep_eq_updateStatus]
  exact updateStatus_mem_self hmem rfl

/-- Through the whole loop, a fetched operation's row reaches its target
status, provided the fetched hashes are distinct. -/
theorem timeoutFold_target (chain : ChainCall) (now : Int) :
    ∀ (ops acc : List UserOpRow) (op : UserOpRow),
      (ops.map (·.userOpHash)).Nodup → op ∈ ops → op ∈ acc →
      { op with status := timeoutTargetStatus chain op, updatedAt := now } ∈
        ops.foldl (timeoutStep chain now) acc := by
  intro ops
  induction ops with
  | nil => intro acc op _ hop; exact absurd hop (List.not_mem_nil op)
  | cons o rest ih =>
      intro acc op hnd hop hacc
      have hnd' := List.nodup_cons.mp hnd
      rcases List.mem_cons.mp hop with rfl | hop'
      · refine timeoutFold_mem_of_skip chain now rest _ _ (timeoutStep_target hacc) ?_
        intro op' hop' heq
        have hsame : op'.userOpHash = op.userOpHash := heq
        exact hnd'.1 (List.mem_map.mpr ⟨op', hop', hsame⟩)
      · have hne : o.userOpHash ≠ op.userOpHash := by
          intro heq
          exact hnd'.1 (List.mem_map.mpr ⟨op, hop', heq.symm⟩)
        exact ih _ op hnd'.2 hop' (timeoutStep_mem_of_ne (Ne.symm hne) hacc)

/-- The expired pending operation of claim C5's counterexample. -/
def c5Row : UserOpRow :=
  { userOpHash := "0xop", txHash := none, status := UserOpStatusPending,
    validUntil := 90, validAfter := 0, sender := "s", paymaster := "p",
    entryPoint := "e", createdAt := 0, updatedAt := 0 }

def c5Chain : ChainCall := fun _ => .ok none

/-- Counterexample to claim C5 as stated: a pass of the timeout
reconciler at time 100 leaves an expired pending operation
(`valid_until = 90`) untouched — the pass only fetches operations with
status `timeout`, and nothing in it invokes `MarkExpiredAsReverted`. -/
theorem reconciler_pass_skips_expired_pending :
    c5Row.status = UserOpStatusPending ∧ c5Row.validUntil ≤ 100 ∧
    checkTimeoutUserOps c5Chain 100 [c5Row] = [c5Row] ∧
    UserOpStatusPending ≠ UserOpStatusReverted :=
  ⟨rfl, by decide, rfl, by decide⟩

/-- Claim C5, amended: a pass of the timeout reconciler leaves every
pending user operation unchanged (it only processes `timeout`
operations); the store operation `MarkExpiredAsReverted` would mark every
pending operation with `valid_until ≤ now` as reverted, but no code in
the reconciler invokes it. -/
theorem pending_rows_and_mark_expired (chain : ChainCall) (now : Int)
    (t : List UserOpRow) (hnd : (t.map (·.userOpHash)).Nodup)
    (r : UserOpRow) (hmem : r ∈ t) :
    (r.status = UserOpStatusPending → r ∈ checkTimeoutUserOps chain now t) ∧
    (r.status = UserOpStatusPending → r.validUntil ≤ now →
      { r with status := UserOpStatusReverted, updatedAt := now } ∈
        markExpiredAsReverted now t) := by
  constructor
  · intro hpend
    unfold checkTimeoutUserOps
    by_cases hlen : (getTimeoutUserOpsOlderThan 2 now t).length = 0
    · simpa [hlen] using hmem
    · simp only [if_neg hlen]
      refine timeoutFold_mem_of_skip chain now _ _ _ hmem ?_
      intro op hop heq
      have hsel := List.mem_filter.mp hop
      have hto : op.status = UserOpStatusTimeout := by
        have := hsel.2
        simp [getTimeoutUserOpsOlderThan] at this ⊢
        exact this.1
      have : op = r := List.inj_on_of_nodup_map hnd hsel.1 hmem heq
      rw [this, hpend] at hto
      exact absurd hto (by decide)
  · intro hpend hexp
    refine List.mem_map.mpr ⟨r, hmem, ?_⟩
    simp [hpend, hexp]

/-- Witness for C5's amended statement at the counterexample's state. -/
theorem pending_rows_and_mark_expired_witness :
    (c5Row.status = UserOpStatusPending → c5Row ∈ checkTimeoutUserOps c5Chain 100 [c5Row]) ∧
    (c5Row.status = UserOpStatusPending → c5Row.validUntil ≤ 100 →
      { c5Row with status := UserOpStatusReverted, updatedAt := 100 } ∈
        markExpiredAsReverted 100 [c5Row]) :=
  pending_rows_and_mark_expired c5Chain 100 [c5Row] (by decide) c5Row (by decide)

/-- Claim C6: the reconciler runs once immediately and then on a 60-second
ticker; a pass fetches the `timeout` operations older than 2 minutes and,
for each fetched operation (hashes being distinct): absent or empty
`tx_hash` makes it `reverted`; a receipt for the stored `tx_hash` makes
it `success`; a null receipt makes it `reverted`. -/
theorem timeout_reconciler_cases (chain : ChainCall) (now : Int) (t : List UserOpRow)
    (hnd : (t.map (·.userOpHash)).Nodup)
    (op : UserOpRow) (hop : op ∈ getTimeoutUserOpsOlderThan 2 now t) :
    (op.status = UserOpStatusTimeout ∧ op.updatedAt + 2 * 60 ≤ now) ∧
    (op.txHash = none →
      { op with status := UserOpStatusReverted, updatedAt := now } ∈
        checkTimeoutUserOps chain now t) ∧
    (∀ h, op.txHash = some h → h = "" →
      { op with status := UserOpStatusReverted, updatedAt := now } ∈
        checkTimeoutUserOps chain now t) ∧
    (∀ h v, op.txHash = some h → h ≠ "" → chain (.jarr [.jstr h]) = .ok (some v) →
      { op with status := UserOpStatusSuccess, updatedAt := now } ∈
        checkTimeoutUserOps chain now t) ∧
    (∀ h, op.txHash = some h → h ≠ "" → chain (.jarr [.jstr h]) = .ok none →
      { op with status := UserOpStatusReverted, updatedAt := now } ∈
        checkTimeoutUserOps chain now t) ∧
    timeoutTickerSeconds = 60 ∧
    (∀ nows t', timeoutStart chain nows t' 0 = checkTimeoutUserOps chain (nows 0) t') := by
  have hsel := List.mem_filter.mp hop
  have hprops : op.status = UserOpStatusTimeout ∧ op.updatedAt + 2 * 60 ≤ now := by
    have := hsel.2
    simpa [getTimeoutUserOpsOlderThan] using this
  have hlen : ¬(getTimeoutUserOpsOlderThan 2 now t).length = 0 := by
    have := List.ne_nil_of_mem hop
    simpa [List.length_eq_zero] using this
  have hndops : ((getTimeoutUserOpsOlderThan 2 now t).map (·.userOpHash)).Nodup := by
    refine List.Nodup.sublist ?_ hnd
    exact List.Sublist.map _ (List.filter_sublist t)
  have hmain : { op with status := timeoutTargetStatus chain op, updatedAt := now } ∈
      checkTimeoutUserOps chain now t := by
    unfold checkTimeoutUserOps
    simp only [if_neg hlen]
    exact timeoutFold_target chain now _ t op hndops hop hsel.1
  refine ⟨hprops, ?_, ?_, ?_, ?_, rfl, fun _ _ => rfl⟩
  · intro hx
    have : timeoutTargetStatus chain op = UserOpStatusReverted := by
      simp [timeoutTargetStatus, hx]
    rwa [this] at hmain
  · intro h hx hh
    have : timeoutTargetStatus chain op = UserOpStatusReverted := by
      simp [timeoutTargetStatus, hx, hh]
    rwa [this] at hmain
  · intro h v hx hh hchain
    have hcr : checkReceipt chain h = true := by
      simp [checkReceipt, hchain]
    have : timeoutTargetStatus chain op = UserOpStatusSuccess := by
      simp [timeoutTargetStatus, hx, hh, hcr]
    rwa [this] at hmain
  · intro h hx hh hchain
    have hcr : checkReceipt chain h = false := by
      simp [checkReceipt, hchain]
    have : timeoutTargetStatus chain op = UserOpStatusReverted := by
      simp [timeoutTargetStatus, hx, hh, hcr]
    rwa [this] at hmain

/-- The state of claim C6's witness: one stale timeout operation whose
transaction has a receipt on chain. -/
def c6Row : UserOpRow :=
  { userOpHash := "0xop", txHash := some "0xtx", status := UserOpStatusTimeout,
    validUntil := 0, validAfter := 0, sender := "s", paymaster := "p",
    entryPoint := "e", createdAt := 0, updatedAt := 0 }

def c6Chain : ChainCall := fun _ => .ok (some (.jstr "receipt"))

/-- Witness for C6: at time 200 the stale operation is fetched and, the
chain returning a receipt, marked success. -/
theorem timeout_reconciler_cases_witness :
    (c6Row.status = UserOpStatusTimeout ∧ c6Row.updatedAt + 2 * 60 ≤ 200) ∧
    ({ c6Row with status := UserOpStatusSuccess, updatedAt := 200 } ∈
      checkTimeoutUserOps c6Chain 200 [c6Row]) :=
  have h := timeout_reconciler_cases c6Chain 200 [c6Row] (by decide) c6Row (by decide)
  ⟨h.1, h.2.2.2.1 "0xtx" (.jstr "receipt") rfl (by decide) rfl⟩

/-- Association-list lookup is invariant under permutation when the keys
are distinct. -/
theorem lookup_eq_of_perm {m₁ m₂ : List (String × JVal)} (hp : m₁.Perm m₂) :
    (m₁.map Prod.fst).Nodup → ∀ k, List.lookup k m₁ = List.lookup k m₂ := by
  induction hp with
  | nil => intro _ _; rfl
  | cons x p ih =>
      intro hnd k
      rw [List.map_cons] at hnd
      have hnd' := (List.nodup_cons.mp hnd).2
      by_cases hk : k = x.1
      · have hb : (k == x.1) = true := beq_iff_eq.mpr hk
        simp [List.lookup, hb]
      · have hb : (k == x.1) = false := beq_eq_false_iff_ne.mpr hk
        simp only [List.lookup, hb]
        exact ih hnd' k
  | swap x y l =>
      intro hnd k
      rw [List.map_cons, List.map_cons] at hnd
      have hy : y.1 ∉ x.1 :: l.map Prod.fst := (List.nodup_cons.mp hnd).1
      have hxy : y.1 ≠ x.1 := fun h => hy (by rw [h]; exact List.mem_cons_self _ _)
      by_cases hky : k = y.1
      · have hb1 : (k == y.1) = true := beq_iff_eq.mpr hky
        have hb2 : (k == x.1) = false :=
          beq_eq_false_iff_ne.mpr fun h => hxy (hky ▸ h)
        simp [List.lookup, hb1, hb2]
      · have hb1 : (k == y.1) = false := beq_eq_false_iff_ne.mpr hky
        by_cases hkx : k = x.1
        · have hb2 : (k == x.1) = true := beq_iff_eq.mpr hkx
          simp [List.lookup, hb1, hb2]
        · have hb2 : (k == x.1) = false := beq_eq_false_iff_ne.mpr hkx
          simp [List.lookup, hb1, hb2]
  | trans p₁ p₂ ih₁ ih₂ =>
      intro hnd k
      have hnd₂ := ((p₁.map Prod.fst).nodup_iff).mp hnd
      exact (ih₁ hnd k).trans (ih₂ hnd₂ k)

/-- Sorting the keys of two permuted maps gives the same list. -/
theorem sorted_keys_eq_of_perm {m₁ m₂ : List (String × JVal)} (hp : m₁.Perm m₂) :
    List.insertionSort (· ≤ ·) (m₁.map Prod.fst) =
      List.insertionSort (· ≤ ·) (m₂.map Prod.fst) := by
  have hkeys : (m₁.map Prod.fst).Perm (m₂.map Prod.fst) := hp.map Prod.fst
  refine List.eq_of_perm_of_sorted ?_ (List.sorted_insertionSort _ _)
    (List.sorted_insertionSort _ _)
  exact ((List.perm_insertionSort _ _).trans hkeys).trans
    (List.perm_insertionSort _ _).symm

/-- `sortedJSONBytes` is invariant under permutation of the decoded
object's fields: re-serialization does not depend on the JSON key
order. -/
theorem sortedJSONBytes_perm {m₁ m₂ : List (String × JVal)} (hp : m₁.Perm m₂)
    (hnd : (m₁.map Prod.fst).Nodup) :
    sortedJSONBytes (.jobj m₁) = sortedJSONBytes (.jobj m₂) := by
  show (List.insertionSort (· ≤ ·) (m₁.map Prod.fst)).flatMap
      (fun k => jsonMarshalString k ++ jsonMarshal ((List.lookup k m₁).getD JVal.jnull)) =
    (List.insertionSort (· ≤ ·) (m₂.map Prod.fst)).flatMap
      (fun k => jsonMarshalString k ++ jsonMarshal ((List.lookup k m₂).getD JVal.jnull))
  rw [sorted_keys_eq_of_perm hp]
  have hfun : (fun k => jsonMarshalString k ++ jsonMarshal ((List.lookup k m₁).getD JVal.jnull))
      = fun k => jsonMarshalString k ++ jsonMarshal ((List.lookup k m₂).getD JVal.jnull) :=
    funext fun k => by rw [lookup_eq_of_perm hp hnd k]
  rw [hfun]

/-- Claim C1: `GenerateUniqueHash` is Keccak-256 of the 32-byte
left-padded value, then the sorted key/value serialization of the data
object, then the transaction-hash bytes; consequently two log records
with equal value, equal tx hash and data objects equal as key-value maps
(whatever the serialized key order) get the identical hash string. -/
theorem generateUniqueHash_deterministic (t₁ t₂ : GoLog)
    (m₁ m₂ : List (String × JVal))
    (hv : t₁.Value = t₂.Value) (hx : t₁.TxHash = t₂.TxHash)
    (hd₁ : t₁.Data = some (.jobj m₁)) (hd₂ : t₂.Data = some (.jobj m₂))
    (hperm : m₁.Perm m₂) (hnd : (m₁.map Prod.fst).Nodup) :
    (∀ t : GoLog, generateUniqueHash t =
      hashHex (keccak256 (leftPad32 (natToBytesBE t.Value) ++
        (match t.Data with
         | some d => (sortedJSONBytes d).map Char.toNat
         | none => []) ++ fromHex t.TxHash))) ∧
    generateUniqueHash t₁ = generateUniqueHash t₂ := by
  refine ⟨fun _ => rfl, ?_⟩
  have key : (sortedJSONBytes (.jobj m₁)).map Char.toNat =
      (sortedJSONBytes (.jobj m₂)).map Char.toNat := by
    rw [sortedJSONBytes_perm hperm hnd]
  unfold generateUniqueHash
  rw [hd₁, hd₂, hv, hx]
  exact congrArg
    (fun bs => hashHex (keccak256 ((leftPad32 (natToBytesBE t₂.Value) ++ bs) ++
      fromHex t₂.TxHash))) key

/-- The two concrete logs of claim C1's witness: the spec's scenario 3 —
value 1000000, tx hash `0x01`, the same data object with its fields in a
different order. -/
def c1Data1 : List (String × JVal) :=
  [("topic", .jstr "0xddf"), ("from", .jstr "0xA"), ("to", .jstr "0xB")]

def c1Data2 : List (String × JVal) :=
  [("from", .jstr "0xA"), ("topic", .jstr "0xddf"), ("to", .jstr "0xB")]

def c1Log1 : GoLog :=
  { Hash := "", TxHash := "0x01", CreatedAt := 0, UpdatedAt := 0, Nonce := 0,
    Sender := "0xs", To := "0xd", Value := 1000000, Data := some (.jobj c1Data1),
    ExtraData := none, Status := LogStatusSending }

def c1Log2 : GoLog :=
  { Hash := "", TxHash := "0x01", CreatedAt := 9, UpdatedAt := 9, Nonce := 7,
    Sender := "0xz", To := "0xd", Value := 1000000, Data := some (.jobj c1Data2),
    ExtraData := none, Status := LogStatusSuccess }

/-- Witness for C1: the two concrete logs hash identically. -/
theorem generateUniqueHash_deterministic_witness :
    generateUniqueHash c1Log1 = generateUniqueHash c1Log2 :=
  (generateUniqueHash_deterministic c1Log1 c1Log2 c1Data1 c1Data2 rfl rfl rfl rfl
    (by unfold c1Data1 c1Data2; exact List.Perm.swap _ _ _)
    (by decide)).2

/-! ## String-splitting lemmas for the signature parser -/

/-- A separator-free string splits into itself. -/
theorem splitOnChar_of_not_mem {sep : Char} {l : List Char} (h : sep ∉ l) :
    splitOnChar sep l = [l] := by
  induction l with
  | nil => rfl
  | cons c rest ih =>
      have hc : ¬c = sep := fun hc => h (hc ▸ List.mem_cons_self c rest)
      have hr := ih fun hm => h (List.mem_cons_of_mem c hm)
      simp [splitOnChar, hc, hr]

/-- Splitting peels off a separator-free prefix. -/
theorem splitOnChar_append_cons {sep : Char} {l₁ : List Char} (l₂ : List Char)
    (h : sep ∉ l₁) :
    splitOnChar sep (l₁ ++ sep :: l₂) = l₁ :: splitOnChar sep l₂ := by
  induction l₁ with
  | nil => simp [splitOnChar]
  | cons c rest ih =>
      have hc : ¬c = sep := fun hc => h (hc ▸ List.mem_cons_self c rest)
      have hr := ih fun hm => h (List.mem_cons_of_mem c hm)
      simp [splitOnChar, hc, hr]

/-- Splitting is a left inverse of joining for separator-free parts. -/
theorem splitOnChar_joinChar {sep : Char} {parts : List (List Char)}
    (hne : parts ≠ []) (h : ∀ p ∈ parts, sep ∉ p) :
    splitOnChar sep (joinChar sep parts) = parts := by
  induction parts with
  | nil => exact absurd rfl hne
  | cons x rest ih =>
      cases rest with
      | nil => exact splitOnChar_of_not_mem (h x (List.mem_cons_self x []))
      | cons y rest' =>
          have hx := h x (List.mem_cons_self x _)
          have hrest := ih (by simp) fun p hp => h p (List.mem_cons_of_mem x hp)
          show splitOnChar sep (x ++ sep :: joinChar sep (y :: rest')) = x :: y :: rest'
          rw [splitOnChar_append_cons _ hx, hrest]

/-- A whitespace-free string splits into itself. -/
theorem splitWs_of_no_ws {l : List Char} (h : ∀ c ∈ l, isSpaceChar c = false) :
    splitWs l = [l] := by
  induction l with
  | nil => rfl
  | cons c rest ih =>
      have hc := h c (List.mem_cons_self c rest)
      have hr := ih fun d hd => h d (List.mem_cons_of_mem c hd)
      simp [splitWs, hc, hr]

/-- Whitespace splitting peels off a whitespace-free prefix. -/
theorem splitWs_append_cons {l₁ : List Char} (c : Char) (l₂ : List Char)
    (h : ∀ d ∈ l₁, isSpaceChar d = false) (hc : isSpaceChar c = true) :
    splitWs (l₁ ++ c :: l₂) = l₁ :: splitWs l₂ := by
  induction l₁ with
  | nil => simp [splitWs, hc]
  | cons d rest ih =>
      have hd := h d (List.mem_cons_self d rest)
      have hr := ih fun e he => h e (List.mem_cons_of_mem d he)
      simp [splitWs, hd, hr]

/-- Whitespace splitting inverts a single-space join of whitespace-free
tokens. -/
theorem splitWs_joinChar_space {tokens : List (List Char)} (hne : tokens ≠ [])
    (h : ∀ t ∈ tokens, ∀ c ∈ t, isSpaceChar c = false) :
    splitWs (joinChar ' ' tokens) = tokens := by
  induction tokens with
  | nil => exact absurd rfl hne
  | cons x rest ih =>
      cases rest with
      | nil => exact splitWs_of_no_ws (h x (List.mem_cons_self x []))
      | cons y rest' =>
          have hx := h x (List.mem_cons_self x _)
          have hrest := ih (by simp) fun t ht => h t (List.mem_cons_of_mem x ht)
          show splitWs (x ++ ' ' :: joinChar ' ' (y :: rest')) = x :: y :: rest'
          rw [splitWs_append_cons _ _ hx (by decide), hrest]

/-- `Fields` of a single-space join of nonempty whitespace-free tokens. -/
theorem goFields_joinChar_space {tokens : List (List Char)} (hne : tokens ≠ [])
    (h : ∀ t ∈ tokens, t ≠ [] ∧ ∀ c ∈ t, isSpaceChar c = false) :
    goFields (joinChar ' ' tokens) = tokens := by
  unfold goFields
  rw [splitWs_joinChar_space hne fun t ht => (h t ht).2]
  exact List.filter_eq_self.mpr fun t ht => by simpa using (h t ht).1

/-- Any character of a join is the separator or from one of the parts. -/
theorem mem_joinChar {c : Char} {sep : Char} :
    ∀ {parts : List (List Char)}, c ∈ joinChar sep parts →
      c = sep ∨ ∃ p ∈ parts, c ∈ p := by
  intro parts
  induction parts with
  | nil => intro h; exact absurd h (List.not_mem_nil c)
  | cons x rest ih =>
      cases rest with
      | nil =>
          intro h
          exact Or.inr ⟨x, List.mem_cons_self x [], h⟩
      | cons y rest' =>
          intro h
          rcases List.mem_append.mp h with hx | hr
          · exact Or.inr ⟨x, List.mem_cons_self x _, hx⟩
          · rcases List.mem_cons.mp hr with rfl | hj
            · exact Or.inl rfl
            · rcases ih hj with hs | ⟨p, hp, hcp⟩
              · exact Or.inl hs
              · exact Or.inr ⟨p, List.mem_cons_of_mem x hp, hcp⟩

/-- `TrimSpace` is the identity when neither end is whitespace. -/
theorem trimSpace_of_ends {l : List Char}
    (h1 : ∀ c, l.head? = some c → isSpaceChar c = false)
    (h2 : ∀ c, l.getLast? = some c → isSpaceChar c = false) : trimSpace l = l := by
  cases l with
  | nil => rfl
  | cons c rest =>
      have hc := h1 c rfl
      unfold trimSpace
      simp only [List.dropWhile_cons, hc, Bool.false_eq_true, if_false]
      cases hrev : (c :: rest).reverse with
      | nil => exact absurd hrev (by simp)
      | cons d ds =>
          have hd : isSpaceChar d = false := by
            refine h2 d ?_
            rw [← List.head?_reverse, hrev]
            rfl
          simp only [List.dropWhile_cons, hd, Bool.false_eq_true, if_false]
          rw [← hrev, List.reverse_reverse]

/-- `TrimSuffix` drops a trailing suffix character. -/
theorem trimSuffixChar_concat (c : Char) (l : List Char) :
    trimSuffixChar c (l ++ [c]) = l := by
  simp [trimSuffixChar, List.getLast?_concat, List.dropLast_concat]

theorem head?_mem_self {l : List Char} {c : Char} (h : l.head? = some c) : c ∈ l := by
  cases l with
  | nil => cases h
  | cons d r =>
      cases h
      exact List.mem_cons_self _ _

theorem getLast?_mem_self {l : List Char} {c : Char} (h : l.getLast? = some c) : c ∈ l := by
  rw [← List.head?_reverse] at h
  exact List.mem_reverse.mp (head?_mem_self h)

theorem head?_append_left {l₁ : List Char} (h : l₁ ≠ []) (l₂ : List Char) :
    (l₁ ++ l₂).head? = l₁.head? := by
  cases l₁ with
  | nil => exact absurd rfl h
  | cons c r => rfl

theorem getLast?_append_right (l₁ : List Char) {l₂ : List Char} (h : l₂ ≠ []) :
    (l₁ ++ l₂).getLast? = l₂.getLast? := by
  rw [← List.head?_reverse, List.reverse_append,
    head?_append_left (by simp [h]) _, List.head?_reverse]

/-- The literal token `indexed`. -/
def indexedTok : List Char := "indexed".data

/-- Parsing a rendered well-formed argument classifies it exactly: the
declared name (or the ordinal for an unnamed argument), the declared
type, and the declared `indexed` flag. -/
theorem parseOneArg_renderArg (i : Nat) (a : SigArg) (ha : goodArg a) :
    parseOneArg i (renderArg a) =
      ((match a.argName with | some n => n | none => itoa i),
       ⟨a.argType, a.indexed⟩) := by
  obtain ⟨⟨htne, htch⟩, htind, hnm⟩ := ha
  rcases a with ⟨an, ind, ty⟩
  simp only at htne htch htind hnm ⊢
  have htyEnds : trimSpace ty = ty :=
    trimSpace_of_ends
      (fun c hc => (htch c (head?_mem_self hc)).1)
      (fun c hc => (htch c (getLast?_mem_self hc)).1)
  have hindTok : indexedTok ≠ [] ∧ ∀ c ∈ indexedTok, isSpaceChar c = false := by decide
  cases an with
  | none =>
      cases ind with
      | false =>
          have hfields : goFields (trimSpace (renderArg ⟨none, false, ty⟩)) = [ty] := by
            show goFields (trimSpace ty) = [ty]
            rw [htyEnds]
            rw [show ty = joinChar ' ' [ty] from rfl]
            exact goFields_joinChar_space (by simp)
              (by
                intro t ht
                rcases List.mem_singleton.mp ht with rfl
                exact ⟨htne, fun c hc => (htch c hc).1⟩)
          simp [parseOneArg, hfields, indexedTok]
      | true =>
          have hshape : renderArg ⟨none, true, ty⟩ = joinChar ' ' [indexedTok, ty] := rfl
          have htrim : trimSpace (renderArg ⟨none, true, ty⟩) =
              renderArg ⟨none, true, ty⟩ := by
            rw [hshape]
            show trimSpace (indexedTok ++ ' ' :: ty) = indexedTok ++ ' ' :: ty
            refine trimSpace_of_ends ?_ ?_
            · intro c hc
              rw [head?_append_left hindTok.1 _] at hc
              exact hindTok.2 c (head?_mem_self hc)
            · intro c hc
              rw [show indexedTok ++ ' ' :: ty = (indexedTok ++ [' ']) ++ ty by simp] at hc
              rw [getLast?_append_right _ htne] at hc
              exact (htch c (getLast?_mem_self hc)).1
          have hfields : goFields (trimSpace (renderArg ⟨none, true, ty⟩)) =
              [indexedTok, ty] := by
            rw [htrim, hshape]
            refine goFields_joinChar_space (by simp) ?_
            intro t ht
            rcases List.mem_cons.mp ht with rfl | ht
            · exact ⟨hindTok.1, hindTok.2⟩
            · rcases List.mem_singleton.mp ht with rfl
              exact ⟨htne, fun c hc => (htch c hc).1⟩
          simp [parseOneArg, hfields, indexedTok]
  | some n =>
      obtain ⟨⟨hnne, hnch⟩, hnind⟩ := hnm
      cases ind with
      | false =>
          have hshape : renderArg ⟨some n, false, ty⟩ = joinChar ' ' [n, ty] := rfl
          have htrim : trimSpace (renderArg ⟨some n, false, ty⟩) =
              renderArg ⟨some n, false, ty⟩ := by
            rw [hshape]
            show trimSpace (n ++ ' ' :: ty) = n ++ ' ' :: ty
            refine trimSpace_of_ends ?_ ?_
            · intro c hc
              rw [head?_append_left hnne _] at hc
              exact (hnch c (head?_mem_self hc)).1
            · intro c hc
              rw [show n ++ ' ' :: ty = (n ++ [' ']) ++ ty by simp] at hc
              rw [getLast?_append_right _ htne] at hc
              exact (htch c (getLast?_mem_self hc)).1
          have hfields : goFields (trimSpace (renderArg ⟨some n, false, ty⟩)) = [n, ty] := by
            rw [htrim, hshape]
            refine goFields_joinChar_space (by simp) ?_
            intro t ht
            rcases List.mem_cons.mp ht with rfl | ht
            · exact ⟨hnne, fun c hc => (hnch c hc).1⟩
            · rcases List.mem_singleton.mp ht with rfl
              exact ⟨htne, fun c hc => (htch c hc).1⟩
          simp [parseOneArg, hfields, hnind, htind, indexedTok]
      | true =>
          have hshape : renderArg ⟨some n, true, ty⟩ =
              joinChar ' ' [n, indexedTok, ty] := rfl
          have htrim : trimSpace (renderArg ⟨some n, true, ty⟩) =
              renderArg ⟨some n, true, ty⟩ := by
            rw [hshape]
            show trimSpace (n ++ ' ' :: (indexedTok ++ ' ' :: ty)) =
              n ++ ' ' :: (indexedTok ++ ' ' :: ty)
            refine trimSpace_of_ends ?_ ?_
            · intro c hc
              rw [head?_append_left hnne _] at hc
              exact (hnch c (head?_mem_self hc)).1
            · intro c hc
              rw [show n ++ ' ' :: (indexedTok ++ ' ' :: ty) =
                  (n ++ [' '] ++ indexedTok ++ [' ']) ++ ty by simp] at hc
              rw [getLast?_append_right _ htne] at hc
              exact (htch c (getLast?_mem_self hc)).1
          have hfields : goFields (trimSpace (renderArg ⟨some n, true, ty⟩)) =
              [n, indexedTok, ty] := by
            rw [htrim, hshape]
            refine goFields_joinChar_space (by simp) ?_
            intro t ht
            rcases List.mem_cons.mp ht with rfl | ht
            · exact ⟨hnne, fun c hc => (hnch c hc).1⟩
            · rcases List.mem_cons.mp ht with rfl | ht
              · exact ⟨hindTok.1, hindTok.2⟩
              · rcases List.mem_singleton.mp ht with rfl
                exact ⟨htne, fun c hc => (htch c hc).1⟩
          simp [parseOneArg, hfields, hnind, htind, indexedTok]

/-- Any character of a rendered argument is the space separator, part of
the `indexed` marker, part of the declared name, or part of the type. -/
theorem mem_renderArg_cases {ch : Char} {a : SigArg} (h : ch ∈ renderArg a) :
    ch = ' ' ∨ ch ∈ indexedTok ∨ (∃ n, a.argName = some n ∧ ch ∈ n) ∨ ch ∈ a.argType := by
  rcases a with ⟨an, ind, ty⟩
  unfold renderArg at h
  rcases mem_joinChar h with h | ⟨p, hp, hcp⟩
  · exact Or.inl h
  · cases an with
    | none =>
        cases ind with
        | false =>
            simp at hp
            subst hp
            exact Or.inr (Or.inr (Or.inr hcp))
        | true =>
            simp at hp
            rcases hp with rfl | rfl
            · exact Or.inr (Or.inl hcp)
            · exact Or.inr (Or.inr (Or.inr hcp))
    | some n =>
        cases ind with
        | false =>
            simp at hp
            rcases hp with rfl | rfl
            · exact Or.inr (Or.inr (Or.inl ⟨p, rfl, hcp⟩))
            · exact Or.inr (Or.inr (Or.inr hcp))
        | true =>
            simp at hp
            rcases hp with rfl | rfl | rfl
            · exact Or.inr (Or.inr (Or.inl ⟨p, rfl, hcp⟩))
            · exact Or.inr (Or.inl hcp)
            · exact Or.inr (Or.inr (Or.inr hcp))

/-- The delimiters `(`, `)` and `,` never occur inside a well-formed
rendered argument. -/
theorem delim_not_mem_renderArg {a : SigArg} (ha : goodArg a) {ch : Char}
    (hch : ch = '(' ∨ ch = ')' ∨ ch = ',') : ch ∉ renderArg a := by
  obtain ⟨⟨_, htch⟩, _, hnm⟩ := ha
  intro hmem
  rcases mem_renderArg_cases hmem with h | h | ⟨n, hn, hcn⟩ | h
  · rcases hch with rfl | rfl | rfl <;> exact absurd h (by decide)
  · rcases hch with rfl | rfl | rfl <;> revert h <;> decide
  · rw [hn] at hnm
    have := (hnm.1).2 ch hcn
    rcases hch with rfl | rfl | rfl
    · exact this.2.1 rfl
    · exact this.2.2.1 rfl
    · exact this.2.2.2 rfl
  · have := htch ch h
    rcases hch with rfl | rfl | rfl
    · exact this.2.1 rfl
    · exact this.2.2.1 rfl
    · exact this.2.2.2 rfl

/-- Mapping the loop body over an enumeration touches only the payload
when the function ignores the index. -/
theorem enumFrom_map_snd {β : Type} (f : SigArg → β) :
    ∀ (n : Nat) (args : List SigArg),
      (args.enumFrom n).map (fun p => f p.2) = args.map f := by
  intro n args
  induction args generalizing n with
  | nil => rfl
  | cons a rest ih =>
      rw [List.enumFrom_cons]
      simp only [List.map_cons]
      rw [ih (n + 1)]

/-- Parsing the rendered arguments element by element. -/
theorem parsedEnum {args : List SigArg} (hwf : ∀ a ∈ args, goodArg a) :
    ∀ n : Nat,
      ((args.map renderArg).enumFrom n).map (fun p => parseOneArg p.1 p.2) =
        (args.enumFrom n).map fun p =>
          ((match p.2.argName with | some s => s | none => itoa p.1),
           (⟨p.2.argType, p.2.indexed⟩ : ArgTypeC)) := by
  induction args with
  | nil => intro n; rfl
  | cons a rest ih =>
      intro n
      rw [List.map_cons, List.enumFrom_cons, List.enumFrom_cons]
      simp only [List.map_cons]
      rw [parseOneArg_renderArg n a (hwf a (List.mem_cons_self a rest)),
        ih (fun a' ha' => hwf a' (List.mem_cons_of_mem a ha')) (n + 1)]

/-- Parsing a rendered well-formed signature recovers the event name, the
declared (or ordinal) argument names, and the declared types with their
`indexed` flags. -/
theorem parseEventSignature_render (e : Event) (name : List Char) (args : List SigArg)
    (hsig : e.EventSignature = renderSignature name args)
    (hname : name ≠ []) (hnp : '(' ∉ name) (hargs : args ≠ [])
    (hwf : ∀ a ∈ args, goodArg a) :
    parseEventSignature e =
      (name,
       (args.enum.map fun p =>
         match p.2.argName with | some s => s | none => itoa p.1),
       args.map fun a => (⟨a.argType, a.indexed⟩ : ArgTypeC)) := by
  have hne : renderSignature name args ≠ "" := by
    intro h
    have hdata := congrArg String.data h
    simp [renderSignature] at hdata
  have hdata : (renderSignature name args).data =
      name ++ '(' :: (joinChar ',' (args.map renderArg) ++ [')']) := by
    simp [renderSignature]
  have hparen : '(' ∉ joinChar ',' (args.map renderArg) ++ [')'] := by
    intro h
    rcases List.mem_append.mp h with h | h
    · rcases mem_joinChar h with h | ⟨p, hp, hcp⟩
      · exact absurd h (by decide)
      · rcases List.mem_map.mp hp with ⟨a, ha, rfl⟩
        exact delim_not_mem_renderArg (hwf a ha) (Or.inl rfl) hcp
    · exact absurd (List.mem_singleton.mp h) (by decide)
  have hcomma : ∀ p ∈ args.map renderArg, ',' ∉ p := by
    intro p hp
    rcases List.mem_map.mp hp with ⟨a, ha, rfl⟩
    exact delim_not_mem_renderArg (hwf a ha) (Or.inr (Or.inr rfl))
  unfold parseEventSignature
  rw [hsig, if_neg hne, hdata, splitOnChar_append_cons _ hnp,
    splitOnChar_of_not_mem hparen]
  simp only [List.headD_cons, List.getD_cons_succ, List.getD_cons_zero]
  rw [trimSuffixChar_concat, splitOnChar_joinChar (by simpa using hargs) hcomma]
  unfold List.enum
  rw [parsedEnum hwf 0]
  refine congrArg (fun x => (name, x)) ?_
  rw [List.map_map, List.map_map]
  refine congrArg (fun x => (_, x)) ?_
  exact enumFrom_map_snd (fun a => (⟨a.argType, a.indexed⟩ : ArgTypeC)) 0 args

/-- The topic0 of a rendered well-formed signature depends only on the
event name and the argument types. -/
theorem getTopic0_render (e : Event) (name : List Char) (args : List SigArg)
    (hsig : e.EventSignature = renderSignature name args)
    (hname : name ≠ []) (hnp : '(' ∉ name) (hargs : args ≠ [])
    (hwf : ∀ a ∈ args, goodArg a) :
    getTopic0FromEventSignature e =
      keccak256 ((name ++ '(' :: joinChar ',' (args.map (·.argType)) ++ [')']).map
        Char.toNat) := by
  have hparse := parseEventSignature_render e name args hsig hname hnp hargs hwf
  unfold getTopic0FromEventSignature
  rw [hparse]
  have hcond : ¬(name = [] ∨
      (args.map fun a => (⟨a.argType, a.indexed⟩ : ArgTypeC)) = []) := by
    simp [hname, hargs]
  simp only [if_neg hcond]
  rw [List.map_map]
  rfl

set_option maxRecDepth 8000 in
/-- Claim C7: the derived topic0 of an event subscription is Keccak-256
of `Name(type1,...,typeN)` built from the parsed types only, so it is
invariant under renaming of argument names and under adding or removing
the `indexed` marker; unnamed arguments are assigned their ordinal as the
argument name; and the spec's `Transfer` signature yields the canonical
ERC-20 transfer topic. -/
theorem topic0_canonical_invariance (e e' : Event) (name : List Char)
    (args args' : List SigArg)
    (hsig : e.EventSignature = renderSignature name args)
    (hsig' : e'.EventSignature = renderSignature name args')
    (hname : name ≠ []) (hnp : '(' ∉ name)
    (hargs : args ≠ []) (hargs' : args' ≠ [])
    (hwf : ∀ a ∈ args, goodArg a) (hwf' : ∀ a ∈ args', goodArg a) :
    getTopic0FromEventSignature e =
      keccak256 ((name ++ '(' :: joinChar ',' (args.map (·.argType)) ++ [')']).map
        Char.toNat) ∧
    (args.map (·.argType) = args'.map (·.argType) →
      getTopic0FromEventSignature e = getTopic0FromEventSignature e') ∧
    (∀ i a, args[i]? = some a → a.argName = none →
      (parseEventSignature e).2.1[i]? = some (itoa i)) ∧
    hashHex (getTopic0FromEventSignature
      ⟨"0x", "Transfer(from indexed address, to indexed address, value uint256)", "T"⟩) =
      "0xddf252ad1be2c89b69c2b068fc378daa952ba7f163c4a11628f55a4df523b3ef" := by
  have hb := getTopic0_render e name args hsig hname hnp hargs hwf
  refine ⟨hb, ?_, ?_, ?_⟩
  · intro htypes
    have hb' := getTopic0_render e' name args' hsig' hname hnp hargs' hwf'
    rw [hb, hb', htypes]
  · intro i a ha hnone
    have hparse := parseEventSignature_render e name args hsig hname hnp hargs hwf
    rw [hparse]
    simp [List.getElem?_map, List.getElem?_enum, ha, hnone]
  · decide

/-- The rendered arguments of claim C7's witness: named and `indexed`. -/
def c7Args : List SigArg :=
  [⟨some ("from".data), true, "address".data⟩,
   ⟨some ("to".data), true, "address".data⟩,
   ⟨some ("value".data), false, "uint256".data⟩]

/-- The same types with different names and no `indexed` markers. -/
def c7ArgsBare : List SigArg :=
  [⟨none, false, "address".data⟩, ⟨none, false, "address".data⟩,
   ⟨none, false, "uint256".data⟩]

def c7Event : Event := ⟨"0x", renderSignature ("Transfer".data) c7Args, "T"⟩

def c7EventBare : Event := ⟨"0x", renderSignature ("Transfer".data) c7ArgsBare, "T"⟩

set_option maxRecDepth 8000 in
/-- Witness for C7: the named/indexed rendering and the bare positional
rendering of `Transfer(address,address,uint256)` share their topic0, the
bare arguments get ordinal names, and the spec's constant comes out. -/
theorem topic0_canonical_invariance_witness :
    (getTopic0FromEventSignature c7Event = getTopic0FromEventSignature c7EventBare) ∧
    ((parseEventSignature c7EventBare).2.1[0]? = some (itoa 0)) ∧
    hashHex (getTopic0FromEventSignature
      ⟨"0x", "Transfer(from indexed address, to indexed address, value uint256)", "T"⟩) =
      "0xddf252ad1be2c89b69c2b068fc378daa952ba7f163c4a11628f55a4df523b3ef" :=
  have h := topic0_canonical_invariance c7Event c7EventBare ("Transfer".data)
    c7Args c7ArgsBare rfl rfl (by decide) (by decide) (by decide) (by decide)
    (by decide) (by decide)
  have hbare := topic0_canonical_invariance c7EventBare c7Event ("Transfer".data)
    c7ArgsBare c7Args rfl rfl (by decide) (by decide) (by decide) (by decide)
    (by decide) (by decide)
  ⟨h.2.1 (by decide), hbare.2.2.1 0 ⟨none, false, "address".data⟩ (by decide) rfl,
   h.2.2.2⟩

end Engine
